import Mathlib

/-!
Verification of the `httprepeater` templated-request engine (`src/main.rs`).

The embedding models strings at the character-list level, so Rust byte
offsets become character offsets (the two coincide on ASCII data and obey
the same arithmetic).  Rust operations that can panic (string slicing,
`Vec` indexing, `unwrap` on a failed send) are modelled as `Option` or
`Except` values, `none`/`error` standing for the panic.

Modelled pieces of the source:
* `matchIndices`   — `value.match_indices(delim)` offset collection
                     (`get_headers` line 270, `get_body` line 289);
* `compile`        — the per-string parity check that panics with
                     "Delimiters need to be set in pairs" on an odd count;
* `materialize`    — the substitution loop of `main` (the three copies for
                     header key, header value and body, lines 137-167,
                     171-193 and 200-225, are syntactically identical and
                     are embedded once);
* `getHeaders` / `getBody` — `get_headers` / `get_body`;
* `vecPop` and the dispatcher step relation — the mutex-guarded
   `wordlist.lock() / pop()` loop of `main` (lines 102-107), with an
   arbitrary interleaving of worker pops given by a schedule;
* `workerRun`      — one worker's pop-spawn-join structure, with the
   transport as an oracle function (lines 97-246).
-/

namespace HttpRepeater

/-- Character-level strings: the abstraction of Rust `String` / `&str`. -/
abbrev Str := List Char

/-- `startsWith p s` holds when `p` is a leading segment of `s`; this is the
prefix test the Rust pattern matcher performs at each scan position. -/
def startsWith : Str → Str → Bool
  | [], _ => true
  | _ :: _, [] => false
  | p :: ps, c :: cs => p == c && startsWith ps cs

/-- Fuelled left-to-right non-overlapping scan collecting the start offsets
of every match of `d`, mirroring Rust `match_indices` for a non-empty
pattern: after a match at `i` the scan resumes at `i + d.length`.  The fuel
is only a structural-recursion device; with fuel at least the length of the
remaining text it never runs out. -/
def matchGoF (d : Str) : Nat → Str → Nat → List Nat
  | _, [], _ => []
  | 0, _ :: _, _ => []
  | fuel + 1, c :: rest, i =>
    if startsWith d (c :: rest) then
      i :: matchGoF d fuel (rest.drop (d.length - 1)) (i + d.length)
    else
      matchGoF d fuel rest (i + 1)

/-- The scan with exactly enough fuel for the remaining text. -/
def matchIdx (d rem : Str) (i : Nat) : List Nat :=
  matchGoF d rem.length rem i

/-- Offsets of the non-overlapping occurrences of `d` in `s`, as
`s.match_indices(d)` collects them; an empty pattern matches at every
boundary `0, 1, …, s.length`, as in Rust. -/
def matchIndices (d s : Str) : List Nat :=
  if d.isEmpty then List.range (s.length + 1) else matchGoF d s.length s 0

/-- The one fatal template error: `get_headers`/`get_body` panic with
"Delimiters need to be set in pairs" when the occurrence count is odd. -/
inductive CompileError where
  | malformedTemplate
deriving DecidableEq

/-- A template string together with the recorded delimiter offsets — the
`(String, Vec<usize>)` pairs that `get_headers` and `get_body` build. -/
structure CompiledTemplate where
  lit : Str
  offs : List Nat
deriving DecidableEq

/-- The per-string compilation step shared by `get_headers` and `get_body`:
collect the delimiter offsets and reject an odd count. -/
def compile (d raw : Str) : Except CompileError CompiledTemplate :=
  if (matchIndices d raw).length % 2 ≠ 0 then .error .malformedTemplate
  else .ok ⟨raw, matchIndices d raw⟩

/-- Number of substitution spans of a compiled template: the substitution
loop walks the offsets two at a time, one span per consecutive pair. -/
def spanCount (t : CompiledTemplate) : Nat :=
  t.offs.length / 2

/-- Rust range slicing `s[a..b]`: panics (`none`) unless `a ≤ b ≤ s.length`. -/
def sliceChecked (s : Str) (a b : Nat) : Option Str :=
  if a ≤ b ∧ b ≤ s.length then some ((s.drop a).take (b - a)) else none

/-- The substitution `while` loop of `main`, carrying the resume position
`last` (`0` initially, `offs[it-1] + delim.len()` afterwards).  Each pair of
offsets contributes the literal slice `s[last..first]` followed by the word;
after the final pair the guarded tail `s[last..]` is appended.  A dangling
unpaired offset makes the loop epilogue read `offs[it-1]` out of bounds — a
panic, hence `none`. -/
def materializeAux (s w : Str) (dlen : Nat) : Nat → List Nat → Option Str
  | last, [] => some (if last < s.length then s.drop last else [])
  | _, [_] => none
  | last, p1 :: p2 :: rest => do
    let seg ← sliceChecked s last p1
    let tail ← materializeAux s w dlen (p2 + dlen) rest
    some (seg ++ w ++ tail)

/-- Materialization of one template for one word: the code pushes the string
unchanged when no delimiter was recorded, and otherwise runs the
substitution loop. -/
def materialize (dlen : Nat) (t : CompiledTemplate) (w : Str) : Option Str :=
  if t.offs.isEmpty then some t.lit
  else materializeAux t.lit w dlen 0 t.offs

/-- Fuelled splitting on a non-empty separator, mirroring Rust
`str::split`: each non-overlapping occurrence of the separator ends the
current segment. -/
def splitF (sep : Str) : Nat → Str → List Str
  | _, [] => [[]]
  | 0, rem => [rem]
  | fuel + 1, c :: rest =>
    if startsWith sep (c :: rest) then
      [] :: splitF sep fuel (rest.drop (sep.length - 1))
    else
      match splitF sep fuel rest with
      | [] => [[c]]
      | seg :: segs => (c :: seg) :: segs

/-- `s.split(sep)` for the fixed separator used by `get_headers`. -/
def splitOnSub (sep s : Str) : List Str :=
  if sep.isEmpty then [s] else splitF sep s.length s

/-- The literal `": "` separator of `get_headers`. -/
def headerSep : Str := [':', ' ']

/-- `get_headers`: each `-H` flag is split on `": "`; an entry that does not
split into exactly two parts is skipped silently; each kept part is compiled
and an odd delimiter count aborts everything. -/
def getHeaders (d : Str) : List Str → Except CompileError (List (List CompiledTemplate))
  | [] => .ok []
  | h :: rest =>
    let parts := splitOnSub headerSep h
    if parts.length ≠ 2 then getHeaders d rest
    else do
      let compiled ← parts.mapM (fun p => compile d p)
      let others ← getHeaders d rest
      .ok (compiled :: others)

/-- `get_body`: the optional body is compiled the same way. -/
def getBody (d : Str) : Option Str → Except CompileError (Option CompiledTemplate)
  | none => .ok none
  | some b => (compile d b).map (fun t => some t)

/-- Total text the substitution loop consumes per span: from the opening
offset through the closing delimiter, summed over consecutive pairs. -/
def consumedLen (dlen : Nat) : List Nat → Nat
  | p1 :: p2 :: rest => (p2 + dlen - p1) + consumedLen dlen rest
  | _ => 0

/-- `Vec::pop` under the mutex: removes and returns the last element, or
reports the queue empty, leaving it unchanged. -/
def vecPop (q : List String) : Option String × List String :=
  match q.getLast? with
  | none => (none, q)
  | some x => (some x, q.dropLast)

/-- The result of the `n`-th call in a sequence of `tryTake` calls on the
queue (call `0` is the first), together with the queue it leaves behind. -/
def popSeq : List String → Nat → Option String × List String
  | q, 0 => vecPop q
  | q, n + 1 => popSeq (vecPop q).2 n

/-- State of one spawned worker: the words it has popped, and whether it has
hit the empty queue and broken out of its loop. -/
structure WorkerState where
  taken : List String
  done : Bool
deriving DecidableEq

/-- The shared dispatcher state: the mutex-guarded wordlist vector plus the
per-worker local states. -/
structure DispatchState where
  queue : List String
  workers : List WorkerState
deriving DecidableEq

/-- One lock-pop-unlock critical section of worker code (`main` lines
102-107): a finished worker does nothing; otherwise a successful pop hands
the word to this worker exclusively, and an empty pop makes it break. -/
def stepWorker (w : WorkerState) (q : List String) : WorkerState × List String :=
  if w.done then (w, q)
  else
    match vecPop q with
    | (none, q') => ({ w with done := true }, q')
    | (some x, q') => ({ w with taken := x :: w.taken }, q')

/-- Scheduling worker `i` for one critical section; an out-of-range index
schedules nothing. -/
def step (s : DispatchState) (i : Nat) : DispatchState :=
  match s.workers[i]? with
  | none => s
  | some w =>
    let p := stepWorker w s.queue
    { queue := p.2, workers := s.workers.set i p.1 }

/-- Running the dispatcher under an arbitrary interleaving, given as the
schedule of which worker wins the mutex at each point. -/
def dispatchRun (s : DispatchState) (sched : List Nat) : DispatchState :=
  sched.foldl step s

/-- The initial state: the loaded wordlist and `n` idle workers. -/
def initState (wordlist : List String) (n : Nat) : DispatchState :=
  { queue := wordlist, workers := List.replicate n ⟨[], false⟩ }

/-- The multiset of words delivered across all workers.  Each delivered word
is handed to exactly one spawned request task, which emits exactly one
`RequestOutcome` carrying it, so this is also the multiset of words over the
emitted outcomes when the transport succeeds. -/
def takenWords (s : DispatchState) : Multiset String :=
  (s.workers.map (fun w => (w.taken : Multiset String))).sum

/-- A network failure on one `send`: `req.send().await.unwrap()` panics the
spawned task. -/
inductive TransportError where
  | transportError
deriving DecidableEq

/-- What a successful request task reports: the word, the status code, the
response body length. -/
structure Outcome where
  word : String
  status : Nat
  bodyLength : Nat
deriving DecidableEq

/-- The fuelled pop-until-empty loop of a single worker draining the queue
alone: the order in which it takes the words. -/
def drainGo : Nat → List String → List String
  | 0, _ => []
  | fuel + 1, q =>
    match vecPop q with
    | (none, _) => []
    | (some x, q') => x :: drainGo fuel q'

/-- All words a lone worker pops before seeing the queue empty. -/
def drainQueue (q : List String) : List String :=
  drainGo q.length q

/-- The worker's join epilogue (`async_handle.await.unwrap()` for each
spawned handle in order): the first panicked task panics the worker. -/
def joinTasks : List (Except TransportError Outcome) → Except TransportError Unit
  | [] => .ok ()
  | .ok _ :: rest => joinTasks rest
  | .error e :: _ => .error e

/-- What running one worker over a queue produces, with the transport as an
oracle from the word to the send result: `sent` is every word it popped and
issued a request for (tasks are spawned inside the pop loop), `outcomes` are
the reports of the tasks whose send succeeded (each task prints its own
outcome before the join phase), and `joined` is the panic status of the
worker's join epilogue. -/
structure WorkerRunResult where
  sent : List String
  outcomes : List Outcome
  joined : Except TransportError Unit

/-- One worker's full run: pop everything, send one request per word,
collect the successful outcomes, then join every task in order. -/
def workerRun (transport : String → Except TransportError Outcome)
    (q : List String) : WorkerRunResult :=
  let ws := drainQueue q
  let rs := ws.map transport
  ⟨ws, rs.filterMap Except.toOption, joinTasks rs⟩

/-- A transport oracle failing exactly on the word `alpha` and answering
status 200 with an empty body otherwise. -/
def failTransport : String → Except TransportError Outcome :=
  fun w => if w = "alpha" then .error .transportError else .ok ⟨w, 200, 0⟩

/-! ## Properties of the offset scan -/

lemma startsWith_length {p s : Str} (h : startsWith p s = true) :
    p.length ≤ s.length := by
  induction p generalizing s with
  | nil => simp
  | cons a p ih =>
    cases s with
    | nil => simp [startsWith] at h
    | cons c cs =>
      simp only [startsWith, Bool.and_eq_true] at h
      have := ih h.2
      simp only [List.length_cons]
      omega

lemma startsWith_self_append (p t : Str) : startsWith p (p ++ t) = true := by
  induction p with
  | nil => simp [startsWith]
  | cons a p ih => simp [startsWith, ih]

lemma matchGoF_eq (d : Str) :
    ∀ f1 f2 rem i, rem.length ≤ f1 → rem.length ≤ f2 →
      matchGoF d f1 rem i = matchGoF d f2 rem i := by
  intro f1
  induction f1 with
  | zero =>
    intro f2 rem i h1 _
    cases rem with
    | nil => cases f2 <;> rfl
    | cons c cs => simp at h1
  | succ f ih =>
    intro f2 rem i h1 h2
    cases rem with
    | nil => cases f2 <;> rfl
    | cons c cs =>
      cases f2 with
      | zero => simp at h2
      | succ f2 =>
        simp only [List.length_cons] at h1 h2
        by_cases hsw : startsWith d (c :: cs) = true
        · simp only [matchGoF, hsw, if_true]
          have hdrop : (cs.drop (d.length - 1)).length ≤ cs.length := by
            rw [List.length_drop]; omega
          exact congrArg _ (ih f2 (cs.drop (d.length - 1)) _ (by omega) (by omega))
        · simp only [matchGoF, if_neg hsw]
          exact ih f2 cs _ (by omega) (by omega)

lemma matchGoF_eq_matchIdx {d : Str} {fuel : Nat} {rem : Str} {i : Nat}
    (h : rem.length ≤ fuel) :
    matchGoF d fuel rem i = matchIdx d rem i :=
  matchGoF_eq d fuel rem.length rem i h (le_refl _)

lemma matchIdx_cons_pos {d : Str} {c : Char} {rest : Str} {i : Nat}
    (h : startsWith d (c :: rest) = true) :
    matchIdx d (c :: rest) i
      = i :: matchIdx d (rest.drop (d.length - 1)) (i + d.length) := by
  have h1 : matchIdx d (c :: rest) i
      = i :: matchGoF d rest.length (rest.drop (d.length - 1)) (i + d.length) := by
    simp [matchIdx, matchGoF, h]
  rw [h1, matchGoF_eq_matchIdx (by rw [List.length_drop]; omega)]

lemma matchIdx_cons_neg {d : Str} {c : Char} {rest : Str} {i : Nat}
    (h : startsWith d (c :: rest) = false) :
    matchIdx d (c :: rest) i = matchIdx d rest (i + 1) := by
  simp [matchIdx, matchGoF, h]

lemma matchIndices_eq_matchIdx {d : Str} (hd : d ≠ []) (s : Str) :
    matchIndices d s = matchIdx d s 0 := by
  cases d with
  | nil => exact absurd rfl hd
  | cons a p => simp [matchIndices, matchIdx]

lemma matchGoF_bounds {d : Str} (hd : d ≠ []) :
    ∀ fuel rem i, rem.length ≤ fuel →
      ∀ j ∈ matchGoF d fuel rem i, i ≤ j ∧ j + d.length ≤ i + rem.length := by
  intro fuel
  induction fuel with
  | zero =>
    intro rem i h j hj
    cases rem with
    | nil => simp [matchGoF] at hj
    | cons c cs => simp at h
  | succ f ih =>
    intro rem i h j hj
    cases rem with
    | nil => simp [matchGoF] at hj
    | cons c cs =>
      simp only [List.length_cons] at h
      by_cases hsw : startsWith d (c :: cs) = true
      · simp only [matchGoF, hsw, if_true, List.mem_cons] at hj
        rcases hj with rfl | hj'
        · have hlen := startsWith_length hsw
          simp only [List.length_cons] at hlen
          constructor
          · exact le_refl _
          · simp only [List.length_cons]; omega
        · have hb := ih _ _ (by rw [List.length_drop]; omega) j hj'
          rw [List.length_drop] at hb
          have hdpos : 0 < d.length := List.length_pos.mpr hd
          simp only [List.length_cons]
          omega
      · simp only [matchGoF, if_neg hsw] at hj
        have hb := ih cs (i + 1) (by omega) j hj
        simp only [List.length_cons]
        omega

lemma matchGoF_chain {d : Str} (hd : d ≠ []) :
    ∀ fuel rem i, rem.length ≤ fuel →
      List.Chain' (fun a b => a < b ∧ a + d.length ≤ b) (matchGoF d fuel rem i) := by
  intro fuel
  induction fuel with
  | zero =>
    intro rem i h
    cases rem with
    | nil => simp [matchGoF]
    | cons c cs => simp at h
  | succ f ih =>
    intro rem i h
    cases rem with
    | nil => simp [matchGoF]
    | cons c cs =>
      simp only [List.length_cons] at h
      by_cases hsw : startsWith d (c :: cs) = true
      · simp only [matchGoF, hsw, if_true]
        refine List.chain'_cons'.mpr ⟨?_, ih _ _ (by rw [List.length_drop]; omega)⟩
        intro y hy
        have hymem := List.mem_of_mem_head? hy
        have hb := matchGoF_bounds hd _ _ _ (by rw [List.length_drop]; omega) y hymem
        have hdpos : 0 < d.length := List.length_pos.mpr hd
        exact ⟨by omega, by omega⟩
      · simp only [matchGoF, if_neg hsw]
        exact ih cs (i + 1) (by omega)

lemma matchIndices_chain (d s : Str) :
    List.Chain' (fun a b => a < b ∧ a + d.length ≤ b) (matchIndices d s) := by
  cases d with
  | nil =>
    simp only [matchIndices, List.isEmpty_nil, if_true]
    exact ((List.pairwise_lt_range _).chain').imp
      (fun a b hab => ⟨hab, by simpa using Nat.le_of_lt hab⟩)
  | cons a p =>
    simp only [matchIndices, List.isEmpty_cons, Bool.false_eq_true, if_false]
    exact matchGoF_chain (by simp) _ _ _ (le_refl _)

lemma matchIndices_bounds (d s : Str) :
    ∀ j ∈ matchIndices d s, j + d.length ≤ s.length := by
  cases d with
  | nil =>
    intro j hj
    simp only [matchIndices, List.isEmpty_nil, if_true, List.mem_range] at hj
    simp only [List.length_nil]
    omega
  | cons a p =>
    intro j hj
    simp only [matchIndices, List.isEmpty_cons, Bool.false_eq_true, if_false] at hj
    have := matchGoF_bounds (d := a :: p) (by simp) s.length s 0 (le_refl _) j hj
    omega

/-! ## Properties of compilation and materialization -/

lemma compile_ok_inv {d raw : Str} {t : CompiledTemplate} (h : compile d raw = .ok t) :
    t = ⟨raw, matchIndices d raw⟩ ∧ (matchIndices d raw).length % 2 = 0 := by
  by_cases hp : (matchIndices d raw).length % 2 = 0
  · simp only [compile, hp, ne_eq, not_true_eq_false, if_false] at h
    injection h with h
    exact ⟨h.symm, hp⟩
  · simp only [compile] at h
    rw [if_pos (by omega)] at h
    exact absurd h (by simp)

lemma materializeAux_nil (s w : Str) (dlen last : Nat) :
    ∃ out, materializeAux s w dlen last [] = some out ∧
      out.length = s.length - last := by
  refine ⟨_, rfl, ?_⟩
  by_cases hl : last < s.length
  · simp [hl]
  · simp [hl]
    omega

lemma materializeAux_spec (s w : Str) (dlen : Nat) :
    ∀ fuel ps last, ps.length ≤ fuel → ps.length % 2 = 0 →
      List.Chain' (fun a b => a + dlen ≤ b) ps →
      (∀ j ∈ ps, j + dlen ≤ s.length) →
      (∀ p ∈ ps.head?, last ≤ p) →
      ∃ out, materializeAux s w dlen last ps = some out ∧
        out.length + consumedLen dlen ps
          = (s.length - last) + w.length * (ps.length / 2) := by
  intro fuel
  induction fuel with
  | zero =>
    intro ps last hf hev _ _ _
    have hnil : ps = [] := List.eq_nil_of_length_eq_zero (by omega)
    subst hnil
    obtain ⟨out, ho, hl⟩ := materializeAux_nil s w dlen last
    exact ⟨out, ho, by simp [consumedLen, hl]⟩
  | succ f ih =>
    intro ps last hf hev hch hb hhd
    match ps with
    | [] =>
      obtain ⟨out, ho, hl⟩ := materializeAux_nil s w dlen last
      exact ⟨out, ho, by simp [consumedLen, hl]⟩
    | [p] => simp at hev
    | p1 :: p2 :: rest =>
      have hlast : last ≤ p1 := hhd p1 rfl
      have h12 : p1 + dlen ≤ p2 := (List.chain'_cons.mp hch).1
      have hch2 : List.Chain' (fun a b => a + dlen ≤ b) (p2 :: rest) :=
        (List.chain'_cons.mp hch).2
      have hb1 : p1 + dlen ≤ s.length := hb p1 (by simp)
      have hb2 : p2 + dlen ≤ s.length := hb p2 (by simp)
      have hhd2 : ∀ p ∈ rest.head?, p2 + dlen ≤ p := (List.chain'_cons'.mp hch2).1
      simp only [List.length_cons] at hf hev
      obtain ⟨out', hout', hlen'⟩ := ih rest (p2 + dlen) (by omega) (by omega)
        hch2.tail (fun j hj => hb j (by simp [hj])) hhd2
      have hcond : last ≤ p1 ∧ p1 ≤ s.length := ⟨hlast, by omega⟩
      have hslice : sliceChecked s last p1 = some ((s.drop last).take (p1 - last)) := by
        simp [sliceChecked, hcond.1, hcond.2]
      refine ⟨(s.drop last).take (p1 - last) ++ w ++ out', ?_, ?_⟩
      · simp [materializeAux, hslice, hout']
      · have hseg : ((s.drop last).take (p1 - last)).length = p1 - last := by
          simp only [List.length_take, List.length_drop]
          omega
        simp only [List.length_append, hseg, List.length_cons, consumedLen]
        have hdiv : (rest.length + 1 + 1) / 2 = rest.length / 2 + 1 := by omega
        rw [hdiv, Nat.mul_succ]
        omega

lemma materialize_spec {d raw : Str} {t : CompiledTemplate} (h : compile d raw = .ok t)
    (w : Str) :
    ∃ out, materialize d.length t w = some out ∧
      out.length + consumedLen d.length t.offs
        = raw.length + w.length * spanCount t := by
  obtain ⟨ht, hev⟩ := compile_ok_inv h
  subst ht
  simp only [materialize, spanCount]
  by_cases hnil : matchIndices d raw = []
  · refine ⟨raw, ?_, ?_⟩ <;> simp [hnil, consumedLen]
  · rw [if_neg (by simpa [List.isEmpty_iff] using hnil)]
    have hch := (matchIndices_chain d raw).imp (fun a b hab => hab.2)
    obtain ⟨out, ho, hl⟩ := materializeAux_spec raw w d.length
      (matchIndices d raw).length (matchIndices d raw) 0 (le_refl _) hev hch
      (matchIndices_bounds d raw) (fun p _ => Nat.zero_le p)
    refine ⟨out, ho, ?_⟩
    simpa using hl

end HttpRepeater

namespace HttpRepeater

lemma startsWith_cons_ne {c0 c : Char} (d' rest : Str) (h : c0 ≠ c) :
    startsWith (c0 :: d') (c :: rest) = false := by
  simp [startsWith, h]

lemma matchIdx_nil (d : Str) (i : Nat) : matchIdx d [] i = [] := rfl

/-- The scan on `"a" ++ d ++ "X" ++ d ++ "b"` finds exactly the two
intended occurrences when the delimiter contains none of the literal
characters. -/
lemma matchIndices_sandwich {d : Str} (hne : d ≠ []) (ha : 'a' ∉ d)
    (hX : 'X' ∉ d) (hb : 'b' ∉ d) :
    matchIndices d ('a' :: (d ++ 'X' :: (d ++ ['b']))) = [1, 2 + d.length] := by
  obtain ⟨c0, d', rfl⟩ : ∃ c0 d', d = c0 :: d' := by
    cases d with
    | nil => exact absurd rfl hne
    | cons c0 d' => exact ⟨c0, d', rfl⟩
  have hc0a : c0 ≠ 'a' := by
    intro h
    exact ha (by rw [h]; exact List.mem_cons_self _ _)
  have hc0X : c0 ≠ 'X' := by
    intro h
    exact hX (by rw [h]; exact List.mem_cons_self _ _)
  have hc0b : c0 ≠ 'b' := by
    intro h
    exact hb (by rw [h]; exact List.mem_cons_self _ _)
  rw [matchIndices_eq_matchIdx hne]
  rw [matchIdx_cons_neg (startsWith_cons_ne _ _ hc0a)]
  simp only [List.cons_append]
  have hsw1 : startsWith (c0 :: d')
      (c0 :: (d' ++ ('X' :: (c0 :: (d' ++ ['b']))))) = true := by
    have := startsWith_self_append (c0 :: d') ('X' :: (c0 :: (d' ++ ['b'])))
    simpa using this
  rw [matchIdx_cons_pos hsw1]
  simp only [List.length_cons, Nat.add_sub_cancel, List.drop_left]
  rw [matchIdx_cons_neg (startsWith_cons_ne _ _ hc0X)]
  have hsw2 : startsWith (c0 :: d') (c0 :: (d' ++ ['b'])) = true := by
    have := startsWith_self_append (c0 :: d') ['b']
    simpa using this
  rw [matchIdx_cons_pos hsw2]
  simp only [List.length_cons, Nat.add_sub_cancel, List.drop_left]
  rw [matchIdx_cons_neg (startsWith_cons_ne _ _ hc0b)]
  rw [matchIdx_nil]
  simp only [List.cons.injEq, and_true, true_and]
  omega

end HttpRepeater

/-! ## Claim theorems -/

open HttpRepeater

/-- C2: for every template string and delimiter, with `k` the number of
non-overlapping left-to-right occurrences of the delimiter, compilation
fails with `MalformedTemplate` exactly when `k` is odd, and for even `k` it
succeeds with a plan holding the recorded offsets, which pair up into
exactly `k / 2` substitution spans. -/
theorem compile_parity_spans (d raw : Str) :
    (compile d raw = .error .malformedTemplate ↔ Odd (matchIndices d raw).length) ∧
    (Even (matchIndices d raw).length →
      compile d raw = .ok ⟨raw, matchIndices d raw⟩ ∧
      spanCount ⟨raw, matchIndices d raw⟩ = (matchIndices d raw).length / 2 ∧
      2 * spanCount ⟨raw, matchIndices d raw⟩ = (matchIndices d raw).length) := by
  constructor
  · constructor
    · intro h
      by_cases hp : (matchIndices d raw).length % 2 = 0
      · simp [compile, hp] at h
      · exact Nat.odd_iff.mpr (by omega)
    · intro h
      have hodd := Nat.odd_iff.mp h
      simp [compile, hodd]
  · intro h
    have hev := Nat.even_iff.mp h
    refine ⟨by simp [compile, hev], rfl, ?_⟩
    simp only [spanCount]
    omega

/-- Witness for C2: `"a##b##"` has two occurrences of `"##"` and compiles
into one span; `"a##b"` has one occurrence and is rejected. -/
theorem compile_parity_spans_witness :
    Even (matchIndices ['#', '#'] ['a', '#', '#', 'b', '#', '#']).length ∧
    compile ['#', '#'] ['a', '#', '#', 'b', '#', '#']
      = .ok ⟨['a', '#', '#', 'b', '#', '#'],
          matchIndices ['#', '#'] ['a', '#', '#', 'b', '#', '#']⟩ ∧
    (compile ['#', '#'] ['a', '#', '#', 'b'] = .error .malformedTemplate ↔
      Odd (matchIndices ['#', '#'] ['a', '#', '#', 'b']).length) :=
  ⟨by decide, ((compile_parity_spans ['#', '#'] ['a', '#', '#', 'b', '#', '#']).2
      (by decide)).1,
    (compile_parity_spans ['#', '#'] ['a', '#', '#', 'b']).1⟩

/-- C4: a template with zero delimiter occurrences compiles to a plan with
no offsets, and materializing it returns the raw string unchanged for every
word.  The three identical code paths (header key, header value, body) are
all embedded by this one `materialize`. -/
theorem materialize_zero_occurrences (d raw w : Str)
    (h : matchIndices d raw = []) :
    compile d raw = .ok ⟨raw, []⟩ ∧
    materialize d.length ⟨raw, []⟩ w = some raw := by
  constructor
  · simp [compile, h]
  · simp [materialize]

/-- Witness for C4: no `"##"` occurs in `"abc"`, so any word leaves it
unchanged. -/
theorem materialize_zero_occurrences_witness :
    matchIndices ['#', '#'] ['a', 'b', 'c'] = [] ∧
    compile ['#', '#'] ['a', 'b', 'c'] = .ok ⟨['a', 'b', 'c'], []⟩ ∧
    materialize 2 ⟨['a', 'b', 'c'], []⟩ ['z', 'z'] = some ['a', 'b', 'c'] :=
  ⟨by decide,
    materialize_zero_occurrences ['#', '#'] ['a', 'b', 'c'] ['z', 'z'] (by decide)⟩

/-- C5 counterexample: for `raw = "a##X##b"`, `d = "##"`, `w = "42"` the
code yields `"a42b"` of length 4, while the claimed formula
`len(raw) − 2·s·len(d) + len(w)·s` gives `7 − 4 + 2 = 5`: the claim ignores
the enclosed text `"X"` that the substitution also consumes. -/
theorem materialize_length_counterexample :
    compile ['#', '#'] ['a', '#', '#', 'X', '#', '#', 'b']
      = .ok ⟨['a', '#', '#', 'X', '#', '#', 'b'], [1, 4]⟩ ∧
    materialize 2 ⟨['a', '#', '#', 'X', '#', '#', 'b'], [1, 4]⟩ ['4', '2']
      = some ['a', '4', '2', 'b'] ∧
    (['a', '4', '2', 'b'] : Str).length = 4 ∧
    (['a', '#', '#', 'X', '#', '#', 'b'] : Str).length
        - 2 * spanCount ⟨['a', '#', '#', 'X', '#', '#', 'b'], [1, 4]⟩
            * (['#', '#'] : Str).length
        + (['4', '2'] : Str).length
            * spanCount ⟨['a', '#', '#', 'X', '#', '#', 'b'], [1, 4]⟩ = 5 ∧
    (4 : Nat) ≠ 5 :=
  ⟨rfl, rfl, rfl, rfl, by decide⟩

/-- C5 amended: for every successfully compiled template and every word,
materialization succeeds and the output length satisfies
`len(out) + consumed = len(raw) + len(w)·s`, where `consumed` sums, over
the `s` spans, the whole consumed stretch from the opening offset through
the end of the closing delimiter (delimiter text plus the enclosed text) —
not merely `2·s·len(d)` as stated. -/
theorem materialize_length_amended (d raw w : Str) (t : CompiledTemplate)
    (h : compile d raw = .ok t) :
    ∃ out, materialize d.length t w = some out ∧
      out.length + consumedLen d.length t.offs
        = raw.length + w.length * spanCount t :=
  materialize_spec h w

/-- Witness for C5 amended: `"a##X##b"` with word `"42"`:
`4 + (4 + 2 − 1) = 7 + 2·1`. -/
theorem materialize_length_amended_witness :
    ∃ out,
      materialize (['#', '#'] : Str).length
          ⟨['a', '#', '#', 'X', '#', '#', 'b'], [1, 4]⟩ ['4', '2'] = some out ∧
      out.length + consumedLen (['#', '#'] : Str).length [1, 4]
        = (['a', '#', '#', 'X', '#', '#', 'b'] : Str).length
          + (['4', '2'] : Str).length
              * spanCount ⟨['a', '#', '#', 'X', '#', '#', 'b'], [1, 4]⟩ :=
  materialize_length_amended ['#', '#'] ['a', '#', '#', 'X', '#', '#', 'b']
    ['4', '2'] _ rfl

/-- C10: for every template that passes compilation the recorded offsets
are strictly increasing with consecutive offsets at least `len(d)` apart
and each at most `len(raw) − len(d)`, and materialization never panics:
every slice the substitution loop takes is in bounds, for every word. -/
theorem offsets_safe (d raw : Str) (t : CompiledTemplate)
    (h : compile d raw = .ok t) :
    List.Chain' (fun a b => a < b ∧ a + d.length ≤ b) t.offs ∧
    (∀ j ∈ t.offs, j + d.length ≤ t.lit.length) ∧
    ∀ w : Str, (materialize d.length t w).isSome = true := by
  have hspec := fun w => materialize_spec h w
  obtain ⟨ht, _⟩ := compile_ok_inv h
  subst ht
  refine ⟨matchIndices_chain d raw, matchIndices_bounds d raw, ?_⟩
  intro w
  obtain ⟨out, ho, _⟩ := hspec w
  simp [ho]

/-- Witness for C10 at `raw = "a##X##b"`, `d = "##"`: offsets `[1, 4]`. -/
theorem offsets_safe_witness :
    List.Chain' (fun a b => a < b ∧ a + (['#', '#'] : Str).length ≤ b)
        (CompiledTemplate.mk ['a', '#', '#', 'X', '#', '#', 'b'] [1, 4]).offs ∧
    (∀ j ∈ (CompiledTemplate.mk ['a', '#', '#', 'X', '#', '#', 'b'] [1, 4]).offs,
        j + (['#', '#'] : Str).length
          ≤ (CompiledTemplate.mk ['a', '#', '#', 'X', '#', '#', 'b'] [1, 4]).lit.length) ∧
    ∀ w : Str,
      (materialize (['#', '#'] : Str).length
          (CompiledTemplate.mk ['a', '#', '#', 'X', '#', '#', 'b'] [1, 4]) w).isSome = true :=
  offsets_safe ['#', '#'] ['a', '#', '#', 'X', '#', '#', 'b'] _ rfl

/-- C3 counterexample: with `d = "aa"` and `raw = "a" + d + "X" + d + "b"
= "aaaXaab"`, the left-to-right scan matches at offsets 0 and 4 (not the
intended 1 and 4), and materialization yields `"wb"`, not `"awb"`: the
claim fails for delimiters that overlap the literal text. -/
theorem roundtrip_counterexample :
    (['a'] ++ ['a', 'a'] ++ ['X'] ++ ['a', 'a'] ++ ['b'] : Str)
      = ['a', 'a', 'a', 'X', 'a', 'a', 'b'] ∧
    compile ['a', 'a'] ['a', 'a', 'a', 'X', 'a', 'a', 'b']
      = .ok ⟨['a', 'a', 'a', 'X', 'a', 'a', 'b'], [0, 4]⟩ ∧
    materialize 2 ⟨['a', 'a', 'a', 'X', 'a', 'a', 'b'], [0, 4]⟩ ['w']
      = some ['w', 'b'] ∧
    some (['w', 'b'] : Str) ≠ some (['a'] ++ ['w'] ++ ['b'] : Str) :=
  ⟨rfl, rfl, rfl, by decide⟩

/-- C3 amended: the round-trip holds for every word once the delimiter is
non-empty and shares no character with the literal parts `'a'`, `'X'`,
`'b'` (so the scan can only match at the two intended offsets); and the
concrete instance of the claim, `raw = "id=##X##"`, `d = "##"`,
`w = "42"` giving `"id=42"`, holds as stated (second conjunct). -/
theorem roundtrip_amended (d w : Str) (hne : d ≠ []) (ha : 'a' ∉ d)
    (hX : 'X' ∉ d) (hb : 'b' ∉ d) :
    (∃ t, compile d ('a' :: (d ++ 'X' :: (d ++ ['b']))) = .ok t ∧
      materialize d.length t w = some ('a' :: (w ++ ['b']))) ∧
    (∃ t, compile ['#', '#'] ['i', 'd', '=', '#', '#', 'X', '#', '#'] = .ok t ∧
      materialize 2 t ['4', '2'] = some ['i', 'd', '=', '4', '2']) := by
  refine ⟨?_, ⟨['i', 'd', '=', '#', '#', 'X', '#', '#'], [3, 6]⟩, rfl, rfl⟩
  have hmi := matchIndices_sandwich hne ha hX hb
  refine ⟨⟨'a' :: (d ++ 'X' :: (d ++ ['b'])), [1, 2 + d.length]⟩, ?_, ?_⟩
  · simp [compile, hmi]
  · have hlen : ('a' :: (d ++ 'X' :: (d ++ ['b']))).length = 3 + 2 * d.length := by
      simp only [List.length_cons, List.length_append, List.length_nil]
      omega
    have hassoc : 'a' :: (d ++ 'X' :: (d ++ ['b']))
        = ('a' :: (d ++ 'X' :: d)) ++ ['b'] := by
      simp
    have hLlen : ('a' :: (d ++ 'X' :: d)).length = 2 + d.length + d.length := by
      simp only [List.length_cons, List.length_append, List.length_nil]
      omega
    have hdrop : ('a' :: (d ++ 'X' :: (d ++ ['b']))).drop (2 + d.length + d.length)
        = ['b'] := by
      rw [hassoc, ← hLlen, List.drop_left]
    have hslice : sliceChecked ('a' :: (d ++ 'X' :: (d ++ ['b']))) 0 1
        = some ['a'] := by
      have h1 : (1 : Nat) ≤ ('a' :: (d ++ 'X' :: (d ++ ['b']))).length := by
        simp [List.length_cons]
      simp only [sliceChecked, List.drop_zero, Nat.sub_zero]
      rw [if_pos ⟨Nat.zero_le 1, h1⟩]
      rw [show (1 : Nat) = 0 + 1 from rfl, List.take_succ_cons, List.take_zero]
    simp only [materialize]
    rw [if_neg (by simp)]
    simp only [materializeAux]
    rw [hslice]
    rw [if_pos (show 2 + d.length + d.length
        < ('a' :: (d ++ 'X' :: (d ++ ['b']))).length from by rw [hlen]; omega)]
    rw [hdrop]
    simp

/-- Witness for C3 amended at `d = "##"`, `w = "42"`: the generic form
yields `"a42b"` and the concrete `"id=##X##"` instance yields `"id=42"`. -/
theorem roundtrip_amended_witness :
    (∃ t, compile ['#', '#'] ('a' :: (['#', '#'] ++ 'X' :: (['#', '#'] ++ ['b'])))
        = .ok t ∧
      materialize (['#', '#'] : Str).length t ['4', '2']
        = some ('a' :: (['4', '2'] ++ ['b']))) ∧
    (∃ t, compile ['#', '#'] ['i', 'd', '=', '#', '#', 'X', '#', '#'] = .ok t ∧
      materialize 2 t ['4', '2'] = some ['i', 'd', '=', '4', '2']) :=
  roundtrip_amended ['#', '#'] ['4', '2'] (by decide) (by decide) (by decide)
    (by decide)

namespace HttpRepeater

/-! ## Properties of the shared work queue and the dispatcher -/

lemma vecPop_nil : vecPop [] = (none, []) := rfl

lemma vecPop_concat (l : List String) (x : String) :
    vecPop (l ++ [x]) = (some x, l) := by
  simp [vecPop, List.getLast?_concat, List.dropLast_concat]

lemma vecPop_none {q : List String} (h : (vecPop q).1 = none) : q = [] := by
  rcases List.eq_nil_or_concat q with rfl | ⟨l, x, rfl⟩
  · rfl
  · rw [List.concat_eq_append, vecPop_concat] at h
    simp at h

lemma popSeq_nil : ∀ n, popSeq [] n = (none, []) := by
  intro n
  induction n with
  | zero => rfl
  | succ n ih => simpa [popSeq, vecPop_nil] using ih

lemma vecPop_queue_le (q : List String) :
    ((vecPop q).2 : Multiset String) ≤ (q : Multiset String) := by
  rcases List.eq_nil_or_concat q with rfl | ⟨l, x, rfl⟩
  · simp [vecPop_nil]
  · rw [List.concat_eq_append, vecPop_concat]
    exact Multiset.coe_le.mpr (List.sublist_append_left l [x]).subperm

lemma popSeq_queue_le : ∀ (n : Nat) (q : List String),
    ((popSeq q n).2 : Multiset String) ≤ (q : Multiset String) := by
  intro n
  induction n with
  | zero => exact fun q => vecPop_queue_le q
  | succ n ih => exact fun q => le_trans (ih (vecPop q).2) (vecPop_queue_le q)

lemma sum_map_set {M : Type} [AddCommMonoid M] (f : WorkerState → M) :
    ∀ (l : List WorkerState) (i : Nat) (w w' : WorkerState),
      l[i]? = some w →
      ((l.set i w').map f).sum + f w = (l.map f).sum + f w' := by
  intro l
  induction l with
  | nil => intro i w w' h; simp at h
  | cons a l ih =>
    intro i w w' h
    cases i with
    | zero =>
      rw [List.getElem?_cons_zero] at h
      injection h with h
      subst h
      simp only [List.set, List.map_cons, List.sum_cons]
      abel
    | succ i =>
      rw [List.getElem?_cons_succ] at h
      have hrec := ih i w w' h
      simp only [List.set, List.map_cons, List.sum_cons]
      rw [add_assoc, add_assoc, hrec]

lemma step_conserve (s : DispatchState) (i : Nat) :
    takenWords (step s i) + ((step s i).queue : Multiset String)
      = takenWords s + (s.queue : Multiset String) := by
  cases hget : s.workers[i]? with
  | none => simp [step, hget]
  | some w =>
    by_cases hdone : w.done = true
    · have hsw : stepWorker w s.queue = (w, s.queue) := by
        simp [stepWorker, hdone]
      have hs := sum_map_set (fun x => (x.taken : Multiset String)) s.workers i w w hget
      dsimp only at hs
      simp only [step, hget, hsw, takenWords]
      exact congrArg (· + (s.queue : Multiset String)) (add_right_cancel hs)
    · rcases List.eq_nil_or_concat s.queue with hq | ⟨l, x, hq⟩
      · have hsw : stepWorker w ([] : List String) = ({ w with done := true }, []) := by
          simp [stepWorker, hdone, vecPop_nil]
        have hs := sum_map_set (fun x => (x.taken : Multiset String)) s.workers i w
          { w with done := true } hget
        dsimp only at hs
        simp only [step, hget, hq, hsw, takenWords]
        exact congrArg (· + (([] : List String) : Multiset String))
          (add_right_cancel hs)
      · rw [List.concat_eq_append] at hq
        have hsw : stepWorker w (l ++ [x]) = ({ w with taken := x :: w.taken }, l) := by
          simp [stepWorker, hdone, vecPop_concat]
        have hs := sum_map_set (fun x => (x.taken : Multiset String)) s.workers i w
          { w with taken := x :: w.taken } hget
        dsimp only at hs
        simp only [step, hget, hq, hsw, takenWords]
        have hx : ((x :: w.taken : List String) : Multiset String)
            = {x} + (w.taken : Multiset String) := by
          rw [Multiset.singleton_add, Multiset.cons_coe]
        rw [hx] at hs
        have hs' : ((s.workers.set i { w with taken := x :: w.taken }).map
              (fun x => (x.taken : Multiset String))).sum
            = (s.workers.map (fun x => (x.taken : Multiset String))).sum + {x} := by
          apply add_right_cancel (b := (w.taken : Multiset String))
          rw [hs]
          abel
        rw [hs', ← Multiset.coe_add, Multiset.coe_singleton]
        abel

lemma run_conserve (sched : List Nat) : ∀ s : DispatchState,
    takenWords (dispatchRun s sched) + ((dispatchRun s sched).queue : Multiset String)
      = takenWords s + (s.queue : Multiset String) := by
  induction sched with
  | nil => intro s; rfl
  | cons i sched ih =>
    intro s
    calc takenWords (dispatchRun (step s i) sched)
          + ((dispatchRun (step s i) sched).queue : Multiset String)
        = takenWords (step s i) + ((step s i).queue : Multiset String) :=
          ih (step s i)
      _ = takenWords s + (s.queue : Multiset String) := step_conserve s i

lemma step_qinv {s : DispatchState} (i : Nat)
    (h : ∀ w ∈ s.workers, w.done = true → s.queue = []) :
    ∀ w ∈ (step s i).workers, w.done = true → (step s i).queue = [] := by
  cases hget : s.workers[i]? with
  | none => simpa [step, hget] using h
  | some w0 =>
    have hmem0 : w0 ∈ s.workers :=
      List.get?_mem (by rw [List.get?_eq_getElem?]; exact hget)
    intro w hw hdone
    by_cases hd0 : w0.done = true
    · have hq : s.queue = [] := h w0 hmem0 hd0
      have hsw : stepWorker w0 ([] : List String) = (w0, []) := by
        simp [stepWorker, hd0]
      simp [step, hget, hq, hsw]
    · rcases List.eq_nil_or_concat s.queue with hq | ⟨l, x, hq⟩
      · have hsw : stepWorker w0 ([] : List String) = ({ w0 with done := true }, []) := by
          simp [stepWorker, hd0, vecPop_nil]
        simp [step, hget, hq, hsw]
      · rw [List.concat_eq_append] at hq
        have hsw : stepWorker w0 (l ++ [x]) = ({ w0 with taken := x :: w0.taken }, l) := by
          simp [stepWorker, hd0, vecPop_concat]
        simp only [step, hget, hq, hsw] at hw hdone ⊢
        rcases List.mem_or_eq_of_mem_set hw with hmem | rfl
        · have hq0 := h w hmem hdone
          rw [hq] at hq0
          simp at hq0
        · exact absurd hdone (by simpa using hd0)

lemma run_qinv (sched : List Nat) : ∀ s : DispatchState,
    (∀ w ∈ s.workers, w.done = true → s.queue = []) →
    ∀ w ∈ (dispatchRun s sched).workers, w.done = true →
      (dispatchRun s sched).queue = [] := by
  induction sched with
  | nil => exact fun s h => h
  | cons i sched ih => exact fun s h => ih (step s i) (step_qinv i h)

lemma step_workers_length (s : DispatchState) (i : Nat) :
    (step s i).workers.length = s.workers.length := by
  cases hget : s.workers[i]? with
  | none => simp [step, hget]
  | some w => simp [step, hget, List.length_set]

lemma run_workers_length (sched : List Nat) : ∀ s : DispatchState,
    (dispatchRun s sched).workers.length = s.workers.length := by
  induction sched with
  | nil => exact fun s => rfl
  | cons i sched ih =>
    intro s
    rw [show dispatchRun s (i :: sched) = dispatchRun (step s i) sched from rfl,
      ih (step s i), step_workers_length]

end HttpRepeater

/-- C8: a header flag that does not split into exactly two parts on `": "`
is silently dropped: compiling the header list with it inserted anywhere
gives exactly the same result as compiling the list without it — the run is
not aborted and the surrounding headers are unaffected. -/
theorem malformed_header_skipped (d : Str) (hdr : Str) (pre post : List Str)
    (hh : (splitOnSub headerSep hdr).length ≠ 2) :
    getHeaders d (pre ++ hdr :: post) = getHeaders d (pre ++ post) := by
  induction pre with
  | nil => simp [getHeaders, hh]
  | cons p pre ih =>
    simp only [List.cons_append, getHeaders, List.append_eq]
    rw [ih]

/-- Witness for C8: `"NoColonHere"` is skipped in front of a kept header
`"A: B"`. -/
theorem malformed_header_skipped_witness :
    (splitOnSub headerSep ['N', 'o', 'C', 'o', 'l', 'o', 'n']).length ≠ 2 ∧
    getHeaders ['#', '#']
        ([['N', 'o', 'C', 'o', 'l', 'o', 'n'], ['A', ':', ' ', 'B']])
      = getHeaders ['#', '#'] [['A', ':', ' ', 'B']] :=
  ⟨by decide,
    malformed_header_skipped ['#', '#'] ['N', 'o', 'C', 'o', 'l', 'o', 'n'] []
      [['A', ':', ' ', 'B']] (by decide)⟩

/-- C6: `tryTake` (the mutex-guarded `Vec::pop`) either removes and returns
a not-yet-consumed item — the queue loses exactly that item — or reports
`Empty`, which happens only on the empty queue and changes nothing; once a
call has returned `Empty` every later call in the sequence does too, and no
call ever makes the queue gain items. -/
theorem tryTake_monotone (q : List String) :
    ((vecPop q).1 = none → q = [] ∧ (vecPop q).2 = []) ∧
    (∀ x, (vecPop q).1 = some x →
      (q : Multiset String) = x ::ₘ ((vecPop q).2 : Multiset String)) ∧
    ((vecPop q).1 = none → ∀ n, (popSeq q n).1 = none) ∧
    (∀ n, ((popSeq q n).2 : Multiset String) ≤ (q : Multiset String)) := by
  refine ⟨?_, ?_, ?_, ?_⟩
  · intro h
    obtain rfl := vecPop_none h
    exact ⟨rfl, rfl⟩
  · intro x hx
    rcases List.eq_nil_or_concat q with rfl | ⟨l, y, rfl⟩
    · simp [vecPop_nil] at hx
    · rw [List.concat_eq_append] at hx ⊢
      rw [vecPop_concat] at hx ⊢
      dsimp only at hx ⊢
      injection hx with hx
      subst hx
      rw [Multiset.cons_coe]
      exact Multiset.coe_eq_coe.mpr (List.perm_append_singleton _ _)
  · intro h n
    obtain rfl := vecPop_none h
    simp [popSeq_nil]
  · intro n
    exact popSeq_queue_le n q

/-- Witness for C6: take from `["alice"]`, then observe that the empty
queue keeps answering `Empty`. -/
theorem tryTake_monotone_witness :
    (vecPop ["alice"]).1 = some "alice" ∧
    (["alice"] : Multiset String)
      = "alice" ::ₘ ((vecPop ["alice"]).2 : Multiset String) ∧
    (popSeq ([] : List String) 3).1 = none ∧
    ((popSeq ["alice"] 5).2 : Multiset String) ≤ (["alice"] : Multiset String) :=
  ⟨rfl, (tryTake_monotone ["alice"]).2.1 "alice" rfl,
    (tryTake_monotone []).2.2.1 rfl 3,
    (tryTake_monotone ["alice"]).2.2.2 5⟩

/-- C1: for every wordlist, every worker count `N ≥ 1` and every
interleaving of the mutex-guarded pops (given as a schedule of which worker
wins the lock at each point), if the run ends with every worker terminated
then the multiset of words delivered across the workers equals the
wordlist's multiset exactly: no entry is lost, none is delivered twice.
Each delivered word is carried by exactly one emitted `RequestOutcome`. -/
theorem dispatcher_exactly_once (wordlist : List String) (n : Nat)
    (sched : List Nat) (hn : 1 ≤ n)
    (hdone : ∀ w ∈ (dispatchRun (initState wordlist n) sched).workers,
      w.done = true) :
    takenWords (dispatchRun (initState wordlist n) sched)
      = (wordlist : Multiset String) := by
  have hinv0 : ∀ w ∈ (initState wordlist n).workers, w.done = true →
      (initState wordlist n).queue = [] := by
    intro w hw hd
    have hw' := List.eq_of_mem_replicate (by simpa [initState] using hw)
    rw [hw'] at hd
    simp at hd
  have hlen : (dispatchRun (initState wordlist n) sched).workers.length = n := by
    rw [run_workers_length]
    simp [initState]
  have hne : (dispatchRun (initState wordlist n) sched).workers ≠ [] := by
    intro hnil
    rw [hnil] at hlen
    simp at hlen
    omega
  obtain ⟨w0, hw0⟩ := List.exists_mem_of_ne_nil _ hne
  have hq : (dispatchRun (initState wordlist n) sched).queue = [] :=
    run_qinv sched (initState wordlist n) hinv0 w0 hw0 (hdone w0 hw0)
  have hcons := run_conserve sched (initState wordlist n)
  rw [hq] at hcons
  have hinit : takenWords (initState wordlist n) = 0 := by
    simp [takenWords, initState, List.map_replicate, List.sum_replicate]
  rw [hinit] at hcons
  simpa using hcons

/-- Witness for C1: three words, two workers, a full interleaved schedule;
both workers finish and together they deliver exactly the wordlist. -/
theorem dispatcher_exactly_once_witness :
    1 ≤ 2 ∧
    (∀ w ∈ (dispatchRun (initState ["alice", "bob", "carol"] 2)
        [0, 1, 0, 1, 0]).workers, w.done = true) ∧
    takenWords (dispatchRun (initState ["alice", "bob", "carol"] 2)
        [0, 1, 0, 1, 0])
      = ((["alice", "bob", "carol"] : List String) : Multiset String) :=
  ⟨by decide, by decide,
    dispatcher_exactly_once ["alice", "bob", "carol"] 2 [0, 1, 0, 1, 0]
      (by decide) (by decide)⟩

namespace HttpRepeater

/-! ## Properties of a worker under transport failure -/

lemma drainGo_coe : ∀ (fuel : Nat) (q : List String), q.length ≤ fuel →
    ((drainGo fuel q : List String) : Multiset String) = (q : Multiset String) := by
  intro fuel
  induction fuel with
  | zero =>
    intro q h
    have hq : q = [] := List.eq_nil_of_length_eq_zero (by omega)
    subst hq
    rfl
  | succ f ih =>
    intro q h
    rcases List.eq_nil_or_concat q with rfl | ⟨l, x, rfl⟩
    · rfl
    · rw [List.concat_eq_append] at h ⊢
      have hstep : drainGo (f + 1) (l ++ [x]) = x :: drainGo f l := by
        simp [drainGo, vecPop_concat]
      rw [hstep, ← Multiset.cons_coe, ih l (by simp at h; omega),
        Multiset.cons_coe]
      exact Multiset.coe_eq_coe.mpr (List.perm_append_singleton _ _).symm

lemma drainQueue_coe (q : List String) :
    ((drainQueue q : List String) : Multiset String) = (q : Multiset String) :=
  drainGo_coe q.length q (le_refl _)

lemma joinTasks_error : ∀ rs : List (Except TransportError Outcome),
    (∃ r ∈ rs, ∃ e, r = .error e) → joinTasks rs = .error .transportError := by
  intro rs
  induction rs with
  | nil =>
    rintro ⟨r, hr, _⟩
    simp at hr
  | cons r rest ih =>
    rintro ⟨r', hr', e, he⟩
    cases r with
    | error e0 => cases e0; rfl
    | ok o =>
      rcases List.mem_cons.mp hr' with rfl | hmem
      · exact absurd he (by simp)
      · exact ih ⟨r', hmem, e, he⟩

end HttpRepeater

/-- C7 counterexample: the queue `["beta", "alpha"]` is popped as
`"alpha"` then `"beta"`; the transport fails on `"alpha"`, yet the worker
still pops and sends `"beta"` (whose outcome is emitted), because the
per-request tasks are only joined after the pop loop has drained the
queue — so the failure does not stop the worker from processing further
words, contrary to the claim. -/
theorem transport_failure_counterexample :
    failTransport "alpha" = .error .transportError ∧
    (workerRun failTransport ["beta", "alpha"]).sent = ["alpha", "beta"] ∧
    "beta" ∈ (workerRun failTransport ["beta", "alpha"]).sent ∧
    (workerRun failTransport ["beta", "alpha"]).sent ≠ ["alpha"] ∧
    (workerRun failTransport ["beta", "alpha"]).outcomes = [⟨"beta", 200, 0⟩] ∧
    (workerRun failTransport ["beta", "alpha"]).joined
      = .error .transportError := by
  refine ⟨rfl, rfl, by decide, by decide, rfl, rfl⟩

/-- C7 amended: when the transport fails for some queued word, the failure
is not reported as a `RequestOutcome` (outcomes are exactly the successful
sends, in order) and no retry occurs (the word multiset sent equals the
queue's multiset exactly); the worker nevertheless keeps taking and sending
every remaining word, and aborts with the fatal error only afterwards, when
it joins its per-request tasks. -/
theorem transport_failure_behavior
    (transport : String → Except TransportError Outcome) (q : List String)
    (w0 : String) (hmem : w0 ∈ q)
    (hfail : transport w0 = .error .transportError) :
    (workerRun transport q).sent = drainQueue q ∧
    ((workerRun transport q).sent : Multiset String) = (q : Multiset String) ∧
    (workerRun transport q).outcomes
      = (workerRun transport q).sent.filterMap (fun w => (transport w).toOption) ∧
    (workerRun transport q).joined = .error .transportError := by
  refine ⟨rfl, drainQueue_coe q, ?_, ?_⟩
  · show ((drainQueue q).map transport).filterMap Except.toOption = _
    rw [List.filterMap_map]
    rfl
  · apply joinTasks_error
    have hw0 : w0 ∈ drainQueue q := by
      have hperm := Multiset.coe_eq_coe.mp (drainQueue_coe q)
      exact hperm.mem_iff.mpr hmem
    exact ⟨transport w0, List.mem_map_of_mem transport hw0,
      .transportError, hfail⟩

/-- Witness for C7 amended at the failing transport and queue
`["beta", "alpha"]`. -/
theorem transport_failure_behavior_witness :
    "alpha" ∈ ["beta", "alpha"] ∧
    ((workerRun failTransport ["beta", "alpha"]).sent
        = drainQueue ["beta", "alpha"] ∧
      ((workerRun failTransport ["beta", "alpha"]).sent : Multiset String)
        = ((["beta", "alpha"] : List String) : Multiset String) ∧
      (workerRun failTransport ["beta", "alpha"]).outcomes
        = (workerRun failTransport ["beta", "alpha"]).sent.filterMap
            (fun w => (failTransport w).toOption) ∧
      (workerRun failTransport ["beta", "alpha"]).joined
        = .error .transportError) :=
  ⟨by decide,
    transport_failure_behavior failTransport ["beta", "alpha"] "alpha"
      (by decide) rfl⟩
